import Mathlib

/-!
Verification development for the ReMD repository-to-Markdown converter.

Each Python module of the core pipeline is shallowly embedded as Lean
definitions: `file_filter.py` (binary detection and language hints),
`tree_builder.py` (ASCII tree rendering), `markdown_renderer.py`
(document assembly), `url_parser.py` (GitHub URL path parsing) and the
`providers` package (the `fetch_all_files` orchestration loops of the
base class and of the GitHub / Azure DevOps providers, with network
calls abstracted as an oracle `FileEntry → Nat → FetchOutcome` giving
the outcome of each fetch attempt).  Strings are `String` or `List
Char`; Python exceptions become explicit outcome values.
-/

/-! ## file_filter.py -/

/-- Index of the last occurrence of `c` in `l`, or `none`
(embedding of Python `str.rfind` restricted to a single character,
with `-1` represented as `none`). -/
def rfindIdx : List Char → Char → Option Nat
  | [], _ => none
  | a :: as, c =>
    match rfindIdx as c with
    | some i => some (i + 1)
    | none => if a = c then some 0 else none

/-- The `BINARY_EXTENSIONS` frozenset of `file_filter.py`, verbatim. -/
def BINARY_EXTENSIONS : List (List Char) :=
  [".png".data, ".jpg".data, ".jpeg".data, ".gif".data, ".bmp".data,
   ".ico".data, ".svg".data, ".webp".data, ".tiff".data,
   ".exe".data, ".dll".data, ".so".data, ".dylib".data, ".o".data,
   ".obj".data, ".class".data, ".pyc".data, ".pyo".data,
   ".zip".data, ".tar".data, ".gz".data, ".bz2".data, ".xz".data,
   ".7z".data, ".rar".data, ".jar".data, ".war".data,
   ".mp3".data, ".mp4".data, ".avi".data, ".mov".data, ".wav".data,
   ".flac".data, ".ogg".data, ".mkv".data, ".webm".data,
   ".ttf".data, ".otf".data, ".woff".data, ".woff2".data, ".eot".data,
   ".pdf".data, ".doc".data, ".docx".data, ".xls".data, ".xlsx".data,
   ".ppt".data, ".pptx".data,
   ".db".data, ".sqlite".data, ".sqlite3".data,
   ".bin".data, ".dat".data, ".lock".data, ".DS_Store".data]

/-- Embedding of `file_filter.is_binary_by_extension`: find the last
dot, lowercase the suffix from that dot, and test membership in
`BINARY_EXTENSIONS`.  No dot means `false`. -/
def is_binary_by_extension (path : List Char) : Bool :=
  match rfindIdx path '.' with
  | none => false
  | some i => decide (((path.drop i).map Char.toLower) ∈ BINARY_EXTENSIONS)

/-- The substring strictly after the last `.` of `path`, when a dot
exists (used to state what `is_binary_by_extension` depends on). -/
def afterLastDot (path : List Char) : Option (List Char) :=
  (rfindIdx path '.').map (fun i => path.drop (i + 1))

/-- The `LANGUAGE_MAP` dict of `file_filter.py`, verbatim, as an
association list (Python dict lookup is exact-key lookup). -/
def LANGUAGE_MAP : List (String × String) :=
  [(".py", "python"), (".js", "javascript"), (".ts", "typescript"),
   (".jsx", "jsx"), (".tsx", "tsx"), (".java", "java"), (".kt", "kotlin"),
   (".kts", "kotlin"), (".cs", "csharp"), (".go", "go"), (".rs", "rust"),
   (".rb", "ruby"), (".php", "php"), (".swift", "swift"), (".c", "c"),
   (".h", "c"), (".cpp", "cpp"), (".hpp", "cpp"), (".cc", "cpp"),
   (".sh", "bash"), (".bash", "bash"), (".zsh", "zsh"),
   (".ps1", "powershell"), (".sql", "sql"), (".html", "html"),
   (".htm", "html"), (".css", "css"), (".scss", "scss"),
   (".sass", "sass"), (".less", "less"), (".xml", "xml"),
   (".json", "json"), (".yaml", "yaml"), (".yml", "yaml"),
   (".toml", "toml"), (".ini", "ini"), (".cfg", "ini"),
   (".md", "markdown"), (".markdown", "markdown"), (".rst", "rst"),
   (".tex", "latex"), (".r", "r"), (".R", "r"), (".scala", "scala"),
   (".lua", "lua"), (".pl", "perl"), (".pm", "perl"), (".ex", "elixir"),
   (".exs", "elixir"), (".erl", "erlang"), (".hs", "haskell"),
   (".dart", "dart"), (".vue", "vue"), (".svelte", "svelte"),
   (".tf", "hcl"), (".proto", "protobuf"), (".graphql", "graphql"),
   (".gql", "graphql"), (".dockerfile", "dockerfile"),
   (".makefile", "makefile")]

/-- The `FILENAME_LANGUAGE_MAP` dict of `file_filter.py`, verbatim. -/
def FILENAME_LANGUAGE_MAP : List (String × String) :=
  [("Dockerfile", "dockerfile"), ("Makefile", "makefile"),
   ("Jenkinsfile", "groovy"), ("Vagrantfile", "ruby"),
   ("Gemfile", "ruby"), ("Rakefile", "ruby"),
   ("CMakeLists.txt", "cmake"), (".gitignore", "gitignore"),
   (".dockerignore", "gitignore"), (".editorconfig", "ini")]

/-- The substring after the last `/` (embedding of
`path.rsplit("/", maxsplit=1)[-1]`). -/
def afterLastSlash (path : String) : String :=
  String.mk ((path.data.reverse.takeWhile (fun c => c ≠ '/')).reverse)

/-- Embedding of `file_filter.get_language_hint`: special filenames
first, then exact-extension lookup, then lowercased-extension lookup,
else the empty string. -/
def get_language_hint (path : String) : String :=
  let filename := if path.data.contains '/' then afterLastSlash path else path
  match List.lookup filename FILENAME_LANGUAGE_MAP with
  | some lang => lang
  | none =>
    match rfindIdx path.data '.' with
    | none => ""
    | some i =>
      let ext := String.mk (path.data.drop i)
      match List.lookup ext LANGUAGE_MAP with
      | some lang => lang
      | none =>
        (List.lookup (String.mk ((path.data.drop i).map Char.toLower))
          LANGUAGE_MAP).getD ""

/-! ## tree_builder.py

The nested Python dict (which preserves insertion order) becomes an
order-preserving association tree. -/

/-- Order-preserving prefix tree of path segments (the nested `dict`
of `tree_builder.build_tree`): `cons name children rest` is an entry
with key `name`, its own subtree `children`, and the remaining sibling
entries `rest`, in insertion order. -/
inductive Forest where
  | nil : Forest
  | cons (name : String) (children : Forest) (rest : Forest) : Forest
deriving Inhabited, DecidableEq

/-- Whether a forest has no entries (a leaf's empty child dict). -/
def Forest.isNil : Forest → Bool
  | .nil => true
  | .cons _ _ _ => false

/-- Ensure key `p` is present in the sibling list, mirroring
`node.setdefault(part, {})`: an existing key keeps its position and
gets `insertRest` applied to its children; a new key is appended at
the end with `insertRest` applied to an empty dict. -/
def insertInto (p : String) (insertRest : Forest → Forest) : Forest → Forest
  | .nil => .cons p (insertRest .nil) .nil
  | .cons n t rest =>
    if n = p then .cons n (insertRest t) rest
    else .cons n t (insertInto p insertRest rest)

/-- Insert a split path into the forest, mirroring the
`node.setdefault(part, {})` walk of `build_tree`. -/
def insertParts : List String → Forest → Forest
  | [], f => f
  | p :: rest, f => insertInto p (insertParts rest) f

/-- Lexicographic comparison of strings by code point, the order used
by Python `sorted` on `str`. -/
def charListLe : List Char → List Char → Bool
  | [], _ => true
  | _ :: _, [] => false
  | a :: as, b :: bs =>
    if a.toNat < b.toNat then true
    else if b.toNat < a.toNat then false
    else charListLe as bs

/-- Insertion sort step used to embed Python `sorted` on strings. -/
def insertSorted (x : String) : List String → List String
  | [] => [x]
  | y :: ys =>
    if charListLe x.data y.data then x :: y :: ys else y :: insertSorted x ys

/-- Embedding of Python `sorted` (lexicographic by code point) via
insertion sort. -/
def sortStrings : List String → List String
  | [] => []
  | x :: xs => insertSorted x (sortStrings xs)

/-- Embedding of `tree_builder._render_tree`: depth-first rendering
with tee/corner connectors and bar/space continuation prefixes;
directory nodes (non-empty children) get a `/` suffix. -/
def renderList : Forest → String → List String
  | .nil, _ => []
  | .cons name cs rest, pre =>
    let isLast := rest.isNil
    let connector := if isLast then "└── " else "├── "
    let displayName := if cs.isNil then name else name ++ "/"
    let extension := if isLast then "    " else "│   "
    (pre ++ connector ++ displayName) ::
      (renderList cs (pre ++ extension) ++ renderList rest pre)

/-- Split a character list on `/`, exactly as Python `str.split("/")`
(the empty string yields one empty segment). -/
def splitSlash : List Char → List (List Char)
  | [] => [[]]
  | c :: rest =>
    if c = '/' then [] :: splitSlash rest
    else
      match splitSlash rest with
      | s :: ss => (c :: s) :: ss
      | [] => [[c]]

/-- String-level wrapper of `splitSlash` (Python `path.split("/")`). -/
def splitSlashStr (s : String) : List String :=
  (splitSlash s.data).map String.mk

/-- Embedding of `tree_builder.build_tree`. -/
def build_tree (paths : List String) : String :=
  if paths = [] then ""
  else
    let tree := (sortStrings paths).foldl
      (fun acc p => insertParts (splitSlashStr p) acc) .nil
    String.intercalate "\n" (renderList tree "")

/-! ## models.py -/

/-- Embedding of the `FileEntry` dataclass. -/
structure FileEntry where
  path : String
  size : Nat
  is_binary : Bool
  content : Option String
  language_hint : String
deriving DecidableEq, Repr

/-- Embedding of the `FetchProgress` dataclass. -/
structure FetchProgress where
  total_files : Nat
  fetched_files : Nat
  skipped_binary : Nat
  current_file : String
  errors : List String
deriving DecidableEq, Repr

/-! ## markdown_renderer.py -/

/-- Embedding of `markdown_renderer.render_markdown`: header, tree
section, then one heading-plus-fence block per text file, all joined
by newlines. -/
def render_markdown (repo_display_name : String) (files : List FileEntry) :
    String :=
  let text_files := files.filter (fun f => !f.is_binary && f.content.isSome)
  let all_paths := text_files.map (fun f => f.path)
  let head := ["# Repository: " ++ repo_display_name ++ "\n",
    "## File Structure\n", "```", build_tree all_paths, "```\n", "## Files\n"]
  let body := text_files.flatMap (fun entry =>
    let lang := if entry.language_hint = "" then get_language_hint entry.path
      else entry.language_hint
    ["### `" ++ entry.path ++ "`\n", "```" ++ lang, entry.content.getD "",
     "```\n"])
  String.intercalate "\n" (head ++ body)

/-- Spec-side restatement of the renderer contract, written from the
specification's words: include exactly the files that are non-binary
and whose content is not absent; emit an H1 naming the repository, an
H2 File Structure section with the ASCII tree of the included paths in
a fenced block, then an H2 Files section with, per included file in
input order, an H3 backtick-quoted path and a fenced block tagged with
the file's language hint (the entry's own hint if non-empty, else
computed from the path) containing the content verbatim. -/
def markdownSpec (repo_display_name : String) (files : List FileEntry) :
    String :=
  let included := files.filter (fun f => f.is_binary = false ∧ f.content ≠ none)
  let fileBlock := fun (f : FileEntry) =>
    let lang := if f.language_hint ≠ "" then f.language_hint
      else get_language_hint f.path
    let verbatim := match f.content with
      | some s => s
      | none => ""
    ["### `" ++ f.path ++ "`\n", "```" ++ lang, verbatim, "```\n"]
  String.intercalate "\n"
    (["# Repository: " ++ repo_display_name ++ "\n", "## File Structure\n",
      "```", build_tree (included.map (fun f => f.path)), "```\n",
      "## Files\n"] ++ included.flatMap fileBlock)

/-! ## url_parser.py (GitHub branch)

`parse_repo_url` is modelled at the URL-path level: scheme and host
dispatch are dropped, and `parsed.path.strip("/")` followed by
`_parse_github` becomes `githubFromPath`. -/

/-- Python `"/".join(segments)`. -/
def joinSlash : List (List Char) → List Char
  | [] => []
  | [s] => s
  | s :: ss => s ++ '/' :: joinSlash ss

/-- Python `path.strip("/")`: drop leading and trailing slashes. -/
def stripSlashes (l : List Char) : List Char :=
  ((l.dropWhile (fun c => c = '/')).reverse.dropWhile (fun c => c = '/')).reverse

/-- Python `repo.removesuffix(".git")`. -/
def removesuffixGit (r : List Char) : List Char :=
  if ".git".data.isSuffixOf r then r.take (r.length - 4) else r

/-- The fields of `RepoInfo` that GitHub URL parsing produces
(provider tag, project and raw URL omitted). -/
structure RepoInfo where
  owner : List Char
  repo : List Char
  branch : Option (List Char)
deriving DecidableEq, Repr

/-- Embedding of `_parse_github`: the path must have at least two
segments; repo loses a trailing `.git`; when there are at least four
segments and the third is `tree`, the branch is everything after
`/tree/` joined with `/`. -/
def parseGithub (path : List Char) : Option RepoInfo :=
  match splitSlash path with
  | owner :: repo :: rest =>
    let repo2 := removesuffixGit repo
    match rest with
    | t :: b0 :: bs =>
      if t = "tree".data then
        some ⟨owner, repo2, some (joinSlash (b0 :: bs))⟩
      else some ⟨owner, repo2, none⟩
    | _ => some ⟨owner, repo2, none⟩
  | _ => none

/-- `parse_repo_url` restricted to the GitHub host: strip slashes from
the URL path, then parse. -/
def githubFromPath (p : List Char) : Option RepoInfo :=
  parseGithub (stripSlashes p)

/-! ## providers/

Network fetches are abstracted as an oracle `fetch : FileEntry → Nat →
FetchOutcome` giving the result of attempt `n` (0 = first try, 1 =
retry) of `fetch_file_content` for a file.  A raised Python exception
becomes an explicit `PyExn` value; `RateLimitError` is a separate
constructor so the `except RateLimitError` clause can be modelled. -/

/-- An exception raised by `fetch_file_content`: either GitHub's
`RateLimitError` (with its reset timestamp and message) or any other
exception, reduced to its message string. -/
inductive PyExn where
  | rateLimit (resetAt : Nat) (msg : String)
  | other (msg : String)
deriving DecidableEq, Repr

/-- Python `str(exc)` for a modelled exception. -/
def PyExn.msg : PyExn → String
  | .rateLimit _ m => m
  | .other m => m

/-- Result of one `fetch_file_content` attempt. -/
inductive FetchOutcome where
  | ok (content : String)
  | exn (e : PyExn)
deriving DecidableEq, Repr

/-- Result of a run of `GitHubProvider.fetch_all_files`: the yielded
snapshots, the file entries after content population, the final
progress state, and `some (resetAt, msg)` when a `RateLimitError`
escaped the generator (aborting it before any further snapshot). -/
structure GhResult where
  snaps : List FetchProgress
  ents : List FileEntry
  pfin : FetchProgress
  abort : Option (Nat × String)
deriving DecidableEq, Repr

/-- Result of a run of a `fetch_all_files` variant that lets no
exception escape (the base-class default and the Azure override). -/
structure PlainResult where
  snaps : List FetchProgress
  ents : List FileEntry
  pfin : FetchProgress
deriving DecidableEq, Repr

/-- The per-file loop of `GitHubProvider.fetch_all_files`: skip binary
or oversized entries; otherwise fetch, re-raising `RateLimitError`
from the first attempt, retrying once on any other exception, and
recording `"<path>: <retry exception>"` when the retry also fails. -/
def githubFetchLoop (fetch : FileEntry → Nat → FetchOutcome) (maxSize : Nat)
    (p : FetchProgress) : List FileEntry → GhResult
  | [] => ⟨[], [], p, none⟩
  | e :: rest =>
    let p0 := { p with current_file := e.path }
    if e.is_binary then
      let p1 := { p0 with skipped_binary := p0.skipped_binary + 1,
                          fetched_files := p0.fetched_files + 1 }
      let r := githubFetchLoop fetch maxSize p1 rest
      ⟨p1 :: r.snaps, e :: r.ents, r.pfin, r.abort⟩
    else if maxSize > 0 ∧ e.size > maxSize then
      let p1 := { p0 with skipped_binary := p0.skipped_binary + 1,
                          fetched_files := p0.fetched_files + 1 }
      let r := githubFetchLoop fetch maxSize p1 rest
      ⟨p1 :: r.snaps, e :: r.ents, r.pfin, r.abort⟩
    else
      match fetch e 0 with
      | .ok c =>
        let e1 := { e with content := some c }
        let p1 := { p0 with fetched_files := p0.fetched_files + 1 }
        let r := githubFetchLoop fetch maxSize p1 rest
        ⟨p1 :: r.snaps, e1 :: r.ents, r.pfin, r.abort⟩
      | .exn (.rateLimit resetAt msg) => ⟨[], e :: rest, p0, some (resetAt, msg)⟩
      | .exn (.other _) =>
        match fetch e 1 with
        | .ok c =>
          let e1 := { e with content := some c }
          let p1 := { p0 with fetched_files := p0.fetched_files + 1 }
          let r := githubFetchLoop fetch maxSize p1 rest
          ⟨p1 :: r.snaps, e1 :: r.ents, r.pfin, r.abort⟩
        | .exn ex2 =>
          let p1 := { p0 with errors := p0.errors ++ [e.path ++ ": " ++ ex2.msg],
                              fetched_files := p0.fetched_files + 1 }
          let r := githubFetchLoop fetch maxSize p1 rest
          ⟨p1 :: r.snaps, e :: r.ents, r.pfin, r.abort⟩

/-- `GitHubProvider.fetch_all_files` started from a fresh
`FetchProgress(total_files=len(files))`. -/
def github_fetch_all_files (fetch : FileEntry → Nat → FetchOutcome)
    (maxSize : Nat) (files : List FileEntry) : GhResult :=
  githubFetchLoop fetch maxSize ⟨files.length, 0, 0, "", []⟩ files

/-- The per-file loop of `AzureDevOpsProvider.fetch_all_files`: like
GitHub's but with no `RateLimitError` clause — every first-attempt
exception leads to one retry, and a failed retry is recorded. -/
def azureFetchLoop (fetch : FileEntry → Nat → FetchOutcome) (maxSize : Nat)
    (p : FetchProgress) : List FileEntry → PlainResult
  | [] => ⟨[], [], p⟩
  | e :: rest =>
    let p0 := { p with current_file := e.path }
    if e.is_binary then
      let p1 := { p0 with skipped_binary := p0.skipped_binary + 1,
                          fetched_files := p0.fetched_files + 1 }
      let r := azureFetchLoop fetch maxSize p1 rest
      ⟨p1 :: r.snaps, e :: r.ents, r.pfin⟩
    else if maxSize > 0 ∧ e.size > maxSize then
      let p1 := { p0 with skipped_binary := p0.skipped_binary + 1,
                          fetched_files := p0.fetched_files + 1 }
      let r := azureFetchLoop fetch maxSize p1 rest
      ⟨p1 :: r.snaps, e :: r.ents, r.pfin⟩
    else
      match fetch e 0 with
      | .ok c =>
        let e1 := { e with content := some c }
        let p1 := { p0 with fetched_files := p0.fetched_files + 1 }
        let r := azureFetchLoop fetch maxSize p1 rest
        ⟨p1 :: r.snaps, e1 :: r.ents, r.pfin⟩
      | .exn _ =>
        match fetch e 1 with
        | .ok c =>
          let e1 := { e with content := some c }
          let p1 := { p0 with fetched_files := p0.fetched_files + 1 }
          let r := azureFetchLoop fetch maxSize p1 rest
          ⟨p1 :: r.snaps, e1 :: r.ents, r.pfin⟩
        | .exn ex2 =>
          let p1 := { p0 with errors := p0.errors ++ [e.path ++ ": " ++ ex2.msg],
                              fetched_files := p0.fetched_files + 1 }
          let r := azureFetchLoop fetch maxSize p1 rest
          ⟨p1 :: r.snaps, e :: r.ents, r.pfin⟩

/-- `AzureDevOpsProvider.fetch_all_files` started from a fresh
progress record. -/
def azure_fetch_all_files (fetch : FileEntry → Nat → FetchOutcome)
    (maxSize : Nat) (files : List FileEntry) : PlainResult :=
  azureFetchLoop fetch maxSize ⟨files.length, 0, 0, "", []⟩ files

/-- The per-file loop of the base-class default
`RepoProvider.fetch_all_files`: skip binary entries, skip entries with
`size > max_file_size > 0`, otherwise fetch once and record
`"<path>: <exception>"` on failure — there is no retry. -/
def baseFetchLoop (fetch : FileEntry → Nat → FetchOutcome) (maxSize : Nat)
    (p : FetchProgress) : List FileEntry → PlainResult
  | [] => ⟨[], [], p⟩
  | e :: rest =>
    let p0 := { p with current_file := e.path }
    if e.is_binary then
      let p1 := { p0 with skipped_binary := p0.skipped_binary + 1,
                          fetched_files := p0.fetched_files + 1 }
      let r := baseFetchLoop fetch maxSize p1 rest
      ⟨p1 :: r.snaps, e :: r.ents, r.pfin⟩
    else if e.size > maxSize ∧ maxSize > 0 then
      let p1 := { p0 with skipped_binary := p0.skipped_binary + 1,
                          fetched_files := p0.fetched_files + 1 }
      let r := baseFetchLoop fetch maxSize p1 rest
      ⟨p1 :: r.snaps, e :: r.ents, r.pfin⟩
    else
      match fetch e 0 with
      | .ok c =>
        let e1 := { e with content := some c }
        let p1 := { p0 with fetched_files := p0.fetched_files + 1 }
        let r := baseFetchLoop fetch maxSize p1 rest
        ⟨p1 :: r.snaps, e1 :: r.ents, r.pfin⟩
      | .exn ex =>
        let p1 := { p0 with errors := p0.errors ++ [e.path ++ ": " ++ ex.msg],
                            fetched_files := p0.fetched_files + 1 }
        let r := baseFetchLoop fetch maxSize p1 rest
        ⟨p1 :: r.snaps, e :: r.ents, r.pfin⟩

/-- `RepoProvider.fetch_all_files` (the shared default) started from a
fresh progress record. -/
def base_fetch_all_files (fetch : FileEntry → Nat → FetchOutcome)
    (maxSize : Nat) (files : List FileEntry) : PlainResult :=
  baseFetchLoop fetch maxSize ⟨files.length, 0, 0, "", []⟩ files

/-- One item of the Azure DevOps `/items` API response, reduced to the
fields `AzureDevOpsProvider.list_files` reads: `path`, `isFolder`,
`size`, and `contentMetadata.isBinary` (`none` when the key chain is
absent). -/
structure AzdoItem where
  path : String
  isFolder : Bool
  size : Nat
  isBinaryFlag : Option Bool
deriving DecidableEq, Repr

/-- Python `path.lstrip("/")`. -/
def lstripSlash (s : String) : String :=
  String.mk (s.data.dropWhile (fun c => c = '/'))

/-- Processing of a single response item in
`AzureDevOpsProvider.list_files`: folders are skipped, the leading `/`
of the path is stripped, an empty path is skipped, and binary status
is the `contentMetadata.isBinary` flag (defaulting to `False`) with a
fallback to extension detection whenever that flag value is falsy. -/
def azdoEntryOf (item : AzdoItem) : Option FileEntry :=
  if item.isFolder then none
  else
    let path := lstripSlash item.path
    if path = "" then none
    else
      let b0 := item.isBinaryFlag.getD false
      let b := if b0 then b0 else is_binary_by_extension path.data
      some ⟨path, if item.isFolder then 0 else item.size, b, none,
        get_language_hint path⟩

/-- Embedding of the item loop of `AzureDevOpsProvider.list_files`. -/
def azdo_list_files (items : List AzdoItem) : List FileEntry :=
  items.filterMap azdoEntryOf

/-! ## Helper lemmas about characters and `rfindIdx` -/

/-- For code points in the lowercase-letter range, `Char.ofNat` and
`Char.toNat` cancel. -/
lemma toNat_ofNat_alpha (m : Nat) (h1 : 97 ≤ m) (h2 : m ≤ 122) :
    (Char.ofNat m).toNat = m := by
  interval_cases m <;> decide

/-- Unfolding of `Char.toLower` without its `let`. -/
lemma toLower_eq (c : Char) :
    Char.toLower c =
      if 65 ≤ c.toNat ∧ c.toNat ≤ 90 then Char.ofNat (c.toNat + 32) else c := rfl

/-- Lowercasing maps no character onto the dot except the dot itself. -/
lemma toLower_eq_dot_iff (c : Char) : Char.toLower c = '.' ↔ c = '.' := by
  rw [toLower_eq]
  split
  · rename_i hc
    constructor
    · intro h
      exfalso
      have h2 := congrArg Char.toNat h
      rw [toNat_ofNat_alpha (c.toNat + 32) (by omega) (by omega)] at h2
      have hd : ('.').toNat = 46 := by decide
      omega
    · intro h; subst h; exact absurd hc (by decide)
  · exact Iff.rfl

/-- `Char.toLower` is idempotent. -/
lemma toLower_toLower (c : Char) :
    Char.toLower (Char.toLower c) = Char.toLower c := by
  conv_lhs => rw [toLower_eq c]
  split
  · rename_i hc
    rw [toLower_eq]
    rw [toNat_ofNat_alpha (c.toNat + 32) (by omega) (by omega)]
    rw [if_neg (by omega), toLower_eq, if_pos hc]
  · rfl

/-- Lowercasing a path does not move its last dot. -/
lemma rfindIdx_map_toLower (l : List Char) :
    rfindIdx (l.map Char.toLower) '.' = rfindIdx l '.' := by
  induction l with
  | nil => rfl
  | cons a as ih =>
    simp only [List.map_cons, rfindIdx, ih]
    cases h : rfindIdx as '.' with
    | some i => rfl
    | none =>
      by_cases ha : a = '.'
      · subst ha; decide
      · have hb : ¬ Char.toLower a = '.' := fun hh => ha ((toLower_eq_dot_iff a).mp hh)
        simp [ha, hb]

/-- The suffix from the last dot starts with that dot. -/
lemma rfindIdx_drop (c : Char) (l : List Char) (i : Nat)
    (h : rfindIdx l c = some i) : l.drop i = c :: l.drop (i + 1) := by
  induction l generalizing i with
  | nil => simp [rfindIdx] at h
  | cons a as ih =>
    simp only [rfindIdx] at h
    cases h2 : rfindIdx as c with
    | some j =>
      rw [h2] at h
      have hij : i = j + 1 := by injection h with h3; omega
      subst hij
      simpa using ih j h2
    | none =>
      rw [h2] at h
      by_cases ha : a = c
      · subst ha
        rw [if_pos rfl] at h
        injection h with h3
        subst h3
        simp
      · rw [if_neg ha] at h
        exact absurd h (by simp)

/-- A list without `c` has no last occurrence of `c`. -/
lemma rfindIdx_eq_none (c : Char) (l : List Char) (h : c ∉ l) :
    rfindIdx l c = none := by
  induction l with
  | nil => rfl
  | cons a as ih =>
    simp only [List.mem_cons, not_or] at h
    have ha : ¬ a = c := fun hh => h.1 hh.symm
    simp [rfindIdx, ih h.2, ha]

/-- The position of the last occurrence inside a right part carries
over to the concatenation. -/
lemma rfindIdx_append (pre l : List Char) (c : Char) (j : Nat)
    (h : rfindIdx l c = some j) :
    rfindIdx (pre ++ l) c = some (pre.length + j) := by
  induction pre with
  | nil => simpa using h
  | cons a pres ih =>
    rw [List.cons_append]
    simp only [rfindIdx, ih]
    congr 1
    simp only [List.length_cons]
    omega

/-- `is_binary_by_extension` is unchanged by lowercasing the whole
path. -/
lemma is_binary_map_toLower (l : List Char) :
    is_binary_by_extension (l.map Char.toLower) = is_binary_by_extension l := by
  unfold is_binary_by_extension
  rw [rfindIdx_map_toLower]
  cases h : rfindIdx l '.' with
  | none => rfl
  | some i =>
    dsimp only
    rw [← List.map_drop, List.map_map]
    have hcomp : (Char.toLower ∘ Char.toLower) = Char.toLower := by
      funext c; exact toLower_toLower c
    rw [hcomp]

/-- `is_binary_by_extension` rewritten through `afterLastDot`. -/
lemma is_binary_eq_afterLastDot (l : List Char) :
    is_binary_by_extension l =
      (afterLastDot l).elim false
        (fun after =>
          decide ((('.' :: after).map Char.toLower) ∈ BINARY_EXTENSIONS)) := by
  unfold is_binary_by_extension afterLastDot
  cases h : rfindIdx l '.' with
  | none => rfl
  | some i =>
    dsimp only [Option.map_some]
    rw [rfindIdx_drop '.' l i h]
    rfl

/-! ## Claim theorems -/

/-- C8: `is_binary_by_extension` is case-insensitive (equal results on
any two paths with the same lowercasing), depends only on the
substring after the last `.`, and is `false` on any path without a
dot. -/
theorem is_binary_case_insensitive_and_ext_only (p q : List Char) :
    (p.map Char.toLower = q.map Char.toLower →
      is_binary_by_extension p = is_binary_by_extension q) ∧
    (afterLastDot p = afterLastDot q →
      is_binary_by_extension p = is_binary_by_extension q) ∧
    ('.' ∉ p → is_binary_by_extension p = false) := by
  refine ⟨fun h => ?_, fun h => ?_, fun h => ?_⟩
  · rw [← is_binary_map_toLower p, h, is_binary_map_toLower q]
  · rw [is_binary_eq_afterLastDot p, is_binary_eq_afterLastDot q, h]
  · unfold is_binary_by_extension
    rw [rfindIdx_eq_none '.' p h]

/-- Witness for C8 at concrete inputs: case variants `photo.PNG` and
`PHOTO.png` agree, two paths sharing the suffix after the last dot
agree, and the dotless path `README` is not binary. -/
theorem is_binary_case_insensitive_and_ext_only_witness :
    is_binary_by_extension "photo.PNG".data
      = is_binary_by_extension "PHOTO.png".data ∧
    is_binary_by_extension "a/b.zip".data
      = is_binary_by_extension "c.zip".data ∧
    is_binary_by_extension "README".data = false := by
  refine ⟨?_, ?_, ?_⟩
  · exact (is_binary_case_insensitive_and_ext_only "photo.PNG".data
      "PHOTO.png".data).1 (by decide)
  · exact (is_binary_case_insensitive_and_ext_only "a/b.zip".data
      "c.zip".data).2.1 (by decide)
  · exact (is_binary_case_insensitive_and_ext_only "README".data
      "README".data).2.2 (by decide)

/-- C10: every path ending in `.DS_Store` in any letter case is
reported non-binary, because the lowercased extension `.ds_store` is
not in `BINARY_EXTENSIONS` — the set's only candidate is the
mixed-case literal `.DS_Store`, which is therefore unreachable. -/
theorem ds_store_is_never_binary (pre s : List Char)
    (hs : s.map Char.toLower = ".ds_store".data) :
    is_binary_by_extension (pre ++ s) = false ∧
    ".ds_store".data ∉ BINARY_EXTENSIONS ∧
    ".DS_Store".data ∈ BINARY_EXTENSIONS := by
  refine ⟨?_, by decide, by decide⟩
  have h0 : rfindIdx s '.' = some 0 := by
    rw [← rfindIdx_map_toLower, hs]; decide
  have h1 : rfindIdx (pre ++ s) '.' = some (pre.length + 0) :=
    rfindIdx_append pre s '.' 0 h0
  have h2 : (pre ++ s).drop (pre.length + 0) = s := by
    rw [Nat.add_zero]
    exact List.drop_left pre s
  unfold is_binary_by_extension
  rw [h1]
  dsimp only
  rw [h2, hs]
  decide

/-- Witness for C10 at concrete inputs: `foo.DS_Store`, the bare
`.DS_Store`, and the upper-case variant `X.DS_STORE`. -/
theorem ds_store_is_never_binary_witness :
    is_binary_by_extension "foo.DS_Store".data = false ∧
    is_binary_by_extension ".DS_Store".data = false ∧
    is_binary_by_extension "X.DS_STORE".data = false := by
  refine ⟨?_, ?_, ?_⟩
  · exact (ds_store_is_never_binary "foo".data ".DS_Store".data (by decide)).1
  · exact (ds_store_is_never_binary [] ".DS_Store".data (by decide)).1
  · exact (ds_store_is_never_binary "X".data ".DS_STORE".data (by decide)).1

/-- C7: concrete outputs of `build_tree` — the empty input gives the
empty string, a single file gets a corner connector, and the
three-file example renders as four lines with `README.md` first,
`src/` last at top level, and its children indented in sorted order,
with no trailing newline. -/
theorem build_tree_concrete_examples :
    build_tree [] = "" ∧
    build_tree ["README.md"] = "└── README.md" ∧
    build_tree ["src/main.py", "src/utils.py", "README.md"] =
      "├── README.md\n└── src/\n    ├── main.py\n    └── utils.py" := by
  exact ⟨by decide, by decide, by decide⟩

/-- C5: `render_markdown` equals the specification-side assembly
`markdownSpec` — it includes exactly the non-binary files with
non-absent content (empty-string content included), and emits the H1
repository header, the H2 File Structure section with the tree of the
included paths in a fence, then the H2 Files section with one
backtick-quoted H3 and one language-tagged fence holding the verbatim
content per included file, in input order. -/
theorem render_markdown_matches_spec (name : String) (files : List FileEntry) :
    render_markdown name files = markdownSpec name files := by
  unfold render_markdown markdownSpec
  have hfilter : files.filter (fun f => !f.is_binary && f.content.isSome)
      = files.filter (fun f => decide (f.is_binary = false ∧ f.content ≠ none)) := by
    apply List.filter_congr
    intro f _
    cases hb : f.is_binary <;> cases hc : f.content <;> simp [hb, hc]
  rw [hfilter]
  have hblock : ∀ f : FileEntry,
      (let lang := if f.language_hint = "" then get_language_hint f.path
         else f.language_hint
       ["### `" ++ f.path ++ "`\n", "```" ++ lang, f.content.getD "", "```\n"])
      = (let lang := if f.language_hint ≠ "" then f.language_hint
           else get_language_hint f.path
         let verbatim := match f.content with
           | some s => s
           | none => ""
         ["### `" ++ f.path ++ "`\n", "```" ++ lang, verbatim, "```\n"]) := by
    intro f
    have hl : (if f.language_hint = "" then get_language_hint f.path
        else f.language_hint)
        = (if f.language_hint ≠ "" then f.language_hint
           else get_language_hint f.path) := by
      by_cases h : f.language_hint = "" <;> simp [h]
    have hv : f.content.getD "" = (match f.content with
        | some s => s
        | none => "") := by
      cases f.content <;> rfl
    simp only [hl, hv]
  simp only [hblock]

/-- C4 counterexample: for an item whose `contentMetadata.isBinary`
flag is present and `false` but whose path has a known-binary
extension (`/logo.png`), `list_files` marks the entry binary — it does
not take the present flag's value, contradicting the claim that
extension detection is used only when the flag is absent. -/
theorem azdo_present_false_flag_is_overridden :
    (azdo_list_files [⟨"/logo.png", false, 5, some false⟩]).map
        (fun e => e.is_binary) = [true] ∧
    ¬ (azdo_list_files [⟨"/logo.png", false, 5, some false⟩]).map
        (fun e => e.is_binary) = [false] := by
  exact ⟨by decide, by decide⟩

/-- C4 amended: in `AzureDevOpsProvider.list_files`, folder items are
skipped, the path's leading slashes are stripped (items left with an
empty path are skipped), and the entry's binary status is the
disjunction of the API's `contentMetadata.isBinary` flag (taken as
`false` when absent) with extension-based detection — so the flag can
force binary but never force non-binary, and extension detection
applies whenever the flag is absent or `false`. -/
theorem azdo_list_files_item_handling (it : AzdoItem) :
    (it.isFolder = true → azdo_list_files [it] = []) ∧
    (it.isFolder = false → lstripSlash it.path ≠ "" →
      azdo_list_files [it] =
        [⟨lstripSlash it.path, it.size,
          it.isBinaryFlag.getD false
            || is_binary_by_extension (lstripSlash it.path).data,
          none, get_language_hint (lstripSlash it.path)⟩]) ∧
    (it.isFolder = false → lstripSlash it.path = "" →
      azdo_list_files [it] = []) := by
  refine ⟨fun hf => ?_, fun hf hp => ?_, fun hf hp => ?_⟩
  · simp [azdo_list_files, List.filterMap, azdoEntryOf, hf]
  · simp only [azdo_list_files, List.filterMap, azdoEntryOf, hf]
    rw [if_neg (by simp), if_neg hp]
    cases hb : it.isBinaryFlag.getD false <;> simp [hb]
  · simp [azdo_list_files, List.filterMap, azdoEntryOf, hf, hp]

/-- Witness for the amended C4 at concrete items: a folder is skipped,
and a file item `/src/app.py` with no binary flag becomes a non-binary
entry with the leading slash stripped. -/
theorem azdo_list_files_item_handling_witness :
    azdo_list_files [⟨"/src", true, 0, none⟩] = [] ∧
    azdo_list_files [⟨"/src/app.py", false, 7, none⟩] =
      [⟨"src/app.py", 7, false, none, "python"⟩] := by
  constructor
  · exact (azdo_list_files_item_handling ⟨"/src", true, 0, none⟩).1 rfl
  · have h := (azdo_list_files_item_handling
      ⟨"/src/app.py", false, 7, none⟩).2.1 rfl (by decide)
    rw [h]
    decide

/-! ## Helper lemmas for URL path parsing -/

/-- Splitting never produces an empty segment list. -/
lemma splitSlash_ne_nil (l : List Char) : splitSlash l ≠ [] := by
  cases l with
  | nil => simp [splitSlash]
  | cons c rest =>
    unfold splitSlash
    by_cases hc : c = '/'
    · simp [hc]
    · simp only [hc, if_false]
      cases h : splitSlash rest <;> simp

/-- A separator-free list splits into itself. -/
lemma splitSlash_no_sep (l : List Char) (h : '/' ∉ l) : splitSlash l = [l] := by
  induction l with
  | nil => rfl
  | cons c rest ih =>
    simp only [List.mem_cons, not_or] at h
    have hc : ¬ c = '/' := fun hh => h.1 hh.symm
    unfold splitSlash
    rw [if_neg hc, ih h.2]

/-- Unfolding of `splitSlash` on a non-separator head. -/
lemma splitSlash_cons_ne (c : Char) (rest : List Char) (hc : ¬ c = '/') :
    splitSlash (c :: rest) = match splitSlash rest with
      | s :: ss => (c :: s) :: ss
      | [] => [[c]] := by
  simp only [splitSlash]
  rw [if_neg hc]

/-- Splitting after a separator-free first segment peels it off. -/
lemma splitSlash_append (o t : List Char) (h : '/' ∉ o) :
    splitSlash (o ++ '/' :: t) = o :: splitSlash t := by
  induction o with
  | nil => simp [splitSlash]
  | cons c os ih =>
    simp only [List.mem_cons, not_or] at h
    have hc : ¬ c = '/' := fun hh => h.1 hh.symm
    rw [List.cons_append, splitSlash_cons_ne c _ hc, ih h.2]

/-- Joining the segments of a split reconstructs the original list. -/
lemma joinSlash_splitSlash (l : List Char) : joinSlash (splitSlash l) = l := by
  induction l with
  | nil => rfl
  | cons c rest ih =>
    unfold splitSlash
    by_cases hc : c = '/'
    · rw [if_pos hc]
      obtain ⟨s, ss, hss⟩ : ∃ s ss, splitSlash rest = s :: ss := by
        cases h : splitSlash rest with
        | nil => exact absurd h (splitSlash_ne_nil rest)
        | cons s ss => exact ⟨s, ss, rfl⟩
      rw [hss]
      rw [hss] at ih
      subst hc
      simpa [joinSlash] using ih
    · rw [if_neg hc]
      obtain ⟨s, ss, hss⟩ : ∃ s ss, splitSlash rest = s :: ss := by
        cases h : splitSlash rest with
        | nil => exact absurd h (splitSlash_ne_nil rest)
        | cons s ss => exact ⟨s, ss, rfl⟩
      rw [hss]
      rw [hss] at ih
      cases ss with
      | nil => simpa [joinSlash] using congrArg (c :: ·) ih
      | cons s2 ss2 => simpa [joinSlash] using congrArg (c :: ·) ih

/-- Dropping leading slashes from a list that starts with none is the
identity. -/
lemma dropWhile_slash_eq_self (l : List Char) (h : l.head? ≠ some '/') :
    l.dropWhile (fun c => c = '/') = l := by
  cases l with
  | nil => rfl
  | cons a as =>
    have ha : ¬ (a = '/') := by
      intro hh; exact h (by simp [hh])
    rw [List.dropWhile_cons_of_neg (by simpa using ha)]

/-- After dropping leading slashes, the head is not a slash. -/
lemma head?_dropWhile_slash (l : List Char) :
    (l.dropWhile (fun c => c = '/')).head? ≠ some '/' := by
  induction l with
  | nil => simp
  | cons a as ih =>
    by_cases ha : a = '/'
    · rw [List.dropWhile_cons_of_pos (by simpa using ha)]
      exact ih
    · rw [List.dropWhile_cons_of_neg (by simpa using ha)]
      simpa using ha

/-- Stripping slashes is the identity on a list with none at either
end. -/
lemma stripSlashes_eq_self (l : List Char) (h1 : l.head? ≠ some '/')
    (h2 : l.getLast? ≠ some '/') : stripSlashes l = l := by
  unfold stripSlashes
  rw [dropWhile_slash_eq_self l h1]
  have h3 : l.reverse.head? ≠ some '/' := by
    rw [← List.getLast?_eq_head?_reverse]; exact h2
  rw [dropWhile_slash_eq_self _ h3, List.reverse_reverse]

/-- A stripped path never ends with a slash. -/
lemma stripSlashes_getLast (p : List Char) :
    (stripSlashes p).getLast? ≠ some '/' := by
  unfold stripSlashes
  rw [List.getLast?_eq_head?_reverse, List.reverse_reverse]
  exact head?_dropWhile_slash _

/-- Splitting a nonempty list that does not end in a slash yields a
nonempty final segment. -/
lemma splitSlash_getLast_ne_nil (l : List Char) (hl : l ≠ [])
    (h : l.getLast? ≠ some '/') :
    ∃ ps t, splitSlash l = ps ++ [t] ∧ t ≠ [] := by
  induction l with
  | nil => exact absurd rfl hl
  | cons c rest ih =>
    cases hr : rest with
    | nil =>
      subst hr
      have hc : ¬ c = '/' := by
        intro hh; exact h (by simp [hh, List.getLast?])
      refine ⟨[], [c], ?_, by simp⟩
      rw [splitSlash_cons_ne c [] hc]
      rfl
    | cons r rs =>
      subst hr
      have hlast : (r :: rs).getLast? ≠ some '/' := by
        rwa [List.getLast?_cons_cons] at h
      obtain ⟨ps, t, hps, ht⟩ := ih (by simp) hlast
      by_cases hc : c = '/'
      · subst hc
        refine ⟨[] :: ps, t, ?_, ht⟩
        show splitSlash ('/' :: (r :: rs)) = ([] :: ps) ++ [t]
        unfold splitSlash
        rw [if_pos rfl, hps]
        rfl
      · rw [splitSlash_cons_ne c _ hc]
        cases ps with
        | nil =>
          rw [hps]
          exact ⟨[], c :: t, by simp, by simp⟩
        | cons s ps2 =>
          rw [hps]
          exact ⟨(c :: s) :: ps2, t, by simp, ht⟩

/-- Unfolding of `joinSlash` on a list with at least two segments. -/
lemma joinSlash_cons_ne_nil (s : List Char) (ss : List (List Char))
    (h : ss ≠ []) : joinSlash (s :: ss) = s ++ '/' :: joinSlash ss := by
  cases ss with
  | nil => exact absurd rfl h
  | cons s2 ss2 => rfl

/-- A join whose final segment is nonempty is nonempty. -/
lemma joinSlash_concat_ne_nil (xs : List (List Char)) (t : List Char)
    (ht : t ≠ []) : joinSlash (xs ++ [t]) ≠ [] := by
  cases xs with
  | nil => simpa [joinSlash] using ht
  | cons x xs2 =>
    rw [List.cons_append, joinSlash_cons_ne_nil x (xs2 ++ [t]) (by simp)]
    simp

/-- `removesuffix(".git")` actually strips a trailing `.git`. -/
lemma removesuffixGit_append (x : List Char) :
    removesuffixGit (x ++ ".git".data) = x := by
  unfold removesuffixGit
  rw [if_pos (by simp [List.isSuffixOf_iff_suffix])]
  have hlen : (x ++ ".git".data).length - 4 = x.length := by
    simp [List.length_append]
  rw [hlen, List.take_left]

/-- `parseGithub` on a two-segment path. -/
lemma parseGithub_two (path o r : List Char) (h : splitSlash path = [o, r]) :
    parseGithub path = some ⟨o, removesuffixGit r, none⟩ := by
  unfold parseGithub
  rw [h]

/-- `parseGithub` on a three-segment path. -/
lemma parseGithub_three (path o r t : List Char)
    (h : splitSlash path = [o, r, t]) :
    parseGithub path = some ⟨o, removesuffixGit r, none⟩ := by
  unfold parseGithub
  rw [h]

/-- `parseGithub` on a path of four or more segments. -/
lemma parseGithub_many (path o r t b0 : List Char) (bs : List (List Char))
    (h : splitSlash path = o :: r :: t :: b0 :: bs) :
    parseGithub path =
      if t = "tree".data then
        some ⟨o, removesuffixGit r, some (joinSlash (b0 :: bs))⟩
      else some ⟨o, removesuffixGit r, none⟩ := by
  unfold parseGithub
  rw [h]

/-- `parseGithub` on a one-segment path fails. -/
lemma parseGithub_short (path : List Char) (o : List Char)
    (h : splitSlash path = [o]) : parseGithub path = none := by
  unfold parseGithub
  rw [h]

/-- The head of a nonempty slash-free segment followed by anything is
not a slash. -/
lemma head?_ne_slash_append (l suffix : List Char) (h1 : l ≠ [])
    (h2 : '/' ∉ l) : (l ++ suffix).head? ≠ some '/' := by
  cases l with
  | nil => exact absurd rfl h1
  | cons a o2 =>
    simp only [List.cons_append, List.head?_cons]
    intro hh
    injection hh with hh2
    exact h2 (by rw [hh2]; exact List.mem_cons_self '/' o2)

/-- The last element of anything followed by a nonempty list not
ending in a slash is not a slash. -/
lemma getLast?_ne_slash_append (pre b : List Char) (hb1 : b ≠ [])
    (hb2 : b.getLast? ≠ some '/') : (pre ++ b).getLast? ≠ some '/' := by
  rw [List.getLast?_append]
  obtain ⟨t, ht⟩ : ∃ t, b.getLast? = some t := by
    cases hb : b.getLast? with
    | none => exact absurd (List.getLast?_eq_none_iff.mp hb) hb1
    | some t => exact ⟨t, rfl⟩
  rw [ht]
  have h3 : some t ≠ some '/' := by rw [← ht]; exact hb2
  simpa using h3

/-- C6: for a GitHub URL path `owner/repo[/tree/branch...]` (segments
free of slashes, branch not ending in a slash), parsing returns the
owner, the repo with a trailing `.git` stripped, and the branch equal
to everything after `/tree/` joined with `/` (slashes inside the
branch included), or `none` when the URL has no branch part; moreover
a successful parse never returns an empty-string branch. -/
theorem parse_github_owner_repo_branch (owner repo b : List Char)
    (ho1 : owner ≠ []) (ho2 : '/' ∉ owner)
    (hr1 : repo ≠ []) (hr2 : '/' ∉ repo)
    (hb1 : b ≠ []) (hb2 : b.getLast? ≠ some '/') :
    githubFromPath (owner ++ '/' :: (repo ++ '/' :: ("tree".data ++ '/' :: b)))
      = some ⟨owner, removesuffixGit repo, some b⟩ ∧
    githubFromPath (owner ++ '/' :: repo)
      = some ⟨owner, removesuffixGit repo, none⟩ ∧
    removesuffixGit (repo ++ ".git".data) = repo ∧
    (∀ p info, githubFromPath p = some info → info.branch ≠ some []) := by
  refine ⟨?_, ?_, removesuffixGit_append repo, ?_⟩
  · have hL : owner ++ '/' :: (repo ++ '/' :: ("tree".data ++ '/' :: b))
        = (owner ++ '/' :: (repo ++ '/' :: ("tree".data ++ ['/']))) ++ b := by
      simp
    have hhead := head?_ne_slash_append owner
      ('/' :: (repo ++ '/' :: ("tree".data ++ '/' :: b))) ho1 ho2
    have hlast : (owner ++ '/' :: (repo ++ '/' ::
        ("tree".data ++ '/' :: b))).getLast? ≠ some '/' := by
      rw [hL]
      exact getLast?_ne_slash_append _ b hb1 hb2
    unfold githubFromPath
    rw [stripSlashes_eq_self _ hhead hlast]
    obtain ⟨s, ss, hss⟩ : ∃ s ss, splitSlash b = s :: ss := by
      cases h : splitSlash b with
      | nil => exact absurd h (splitSlash_ne_nil b)
      | cons s ss => exact ⟨s, ss, rfl⟩
    have hsplit : splitSlash
        (owner ++ '/' :: (repo ++ '/' :: ("tree".data ++ '/' :: b)))
        = owner :: repo :: "tree".data :: s :: ss := by
      rw [splitSlash_append owner _ ho2, splitSlash_append repo _ hr2,
        splitSlash_append "tree".data _ (by decide), hss]
    rw [parseGithub_many _ owner repo "tree".data s ss hsplit, if_pos rfl]
    have hjoin : joinSlash (s :: ss) = b := by
      rw [← hss, joinSlash_splitSlash]
    rw [hjoin]
  · have hhead := head?_ne_slash_append owner ('/' :: repo) ho1 ho2
    have hL2 : owner ++ '/' :: repo = (owner ++ ['/']) ++ repo := by simp
    have hrl : repo.getLast? ≠ some '/' := by
      intro hh
      exact hr2 (by simpa using List.mem_of_getLast?_eq_some hh)
    have hlast : (owner ++ '/' :: repo).getLast? ≠ some '/' := by
      rw [hL2]
      exact getLast?_ne_slash_append _ repo hr1 hrl
    unfold githubFromPath
    rw [stripSlashes_eq_self _ hhead hlast]
    have hsplit : splitSlash (owner ++ '/' :: repo) = [owner, repo] := by
      rw [splitSlash_append owner _ ho2, splitSlash_no_sep repo hr2]
    exact parseGithub_two _ owner repo hsplit
  · intro p info hinfo
    unfold githubFromPath at hinfo
    by_cases hl : stripSlashes p = []
    · rw [hl, show parseGithub [] = none from rfl] at hinfo
      exact Option.noConfusion hinfo
    · obtain ⟨ps, t, hps, ht⟩ := splitSlash_getLast_ne_nil (stripSlashes p) hl
        (stripSlashes_getLast p)
      match ps, hps with
      | [], hps =>
        rw [parseGithub_short _ t (by simpa using hps)] at hinfo
        exact Option.noConfusion hinfo
      | [o], hps =>
        rw [parseGithub_two _ o t (by simpa using hps)] at hinfo
        injection hinfo with h5
        subst h5
        simp
      | [o, r], hps =>
        rw [parseGithub_three _ o r t (by simpa using hps)] at hinfo
        injection hinfo with h5
        subst h5
        simp
      | o :: r :: t0 :: ps3, hps =>
        have hps4 : splitSlash (stripSlashes p)
            = o :: r :: t0 :: (ps3 ++ [t]) := by
          simpa using hps
        cases hp3 : ps3 ++ [t] with
        | nil => exact absurd hp3 (by simp)
        | cons b0 bs =>
          rw [hp3] at hps4
          rw [parseGithub_many _ o r t0 b0 bs hps4] at hinfo
          by_cases htree : t0 = "tree".data
          · rw [if_pos htree] at hinfo
            injection hinfo with h5
            subst h5
            simp only [ne_eq, Option.some.injEq]
            intro hbr
            have hjn : joinSlash (ps3 ++ [t]) ≠ [] :=
              joinSlash_concat_ne_nil ps3 t ht
            rw [hp3] at hjn
            exact hjn hbr
          · rw [if_neg htree] at hinfo
            injection hinfo with h5
            subst h5
            simp

/-- Witness for C6 at concrete URLs: the path
`owner/repo.git/tree/feature/my-branch` yields owner `owner`, repo
`repo` (`.git` stripped) and the slash-containing branch
`feature/my-branch`, and `owner/repo` yields no branch. -/
theorem parse_github_owner_repo_branch_witness :
    githubFromPath "owner/repo.git/tree/feature/my-branch".data
      = some ⟨"owner".data, "repo".data, some "feature/my-branch".data⟩ ∧
    githubFromPath "owner/repo".data
      = some ⟨"owner".data, "repo".data, none⟩ := by
  have h := parse_github_owner_repo_branch "owner".data "repo.git".data
    "feature/my-branch".data
    (by decide) (by decide) (by decide) (by decide) (by decide) (by decide)
  constructor
  · have h1 := h.1
    rw [show ("owner".data ++ '/' :: ("repo.git".data ++ '/' ::
        ("tree".data ++ '/' :: "feature/my-branch".data)))
        = "owner/repo.git/tree/feature/my-branch".data from by decide,
      show removesuffixGit "repo.git".data = "repo".data from by decide] at h1
    exact h1
  · have h3 := parse_github_owner_repo_branch "owner".data "repo".data
      "x".data (by decide) (by decide) (by decide) (by decide) (by decide)
      (by decide)
    have h4 := h3.2.1
    rw [show ("owner".data ++ '/' :: "repo".data) = "owner/repo".data
        from by decide,
      show removesuffixGit "repo".data = "repo".data from by decide] at h4
    exact h4

/-- C9: whenever the stripped URL path has at least two segments,
GitHub parsing succeeds regardless of any extra trailing segments, and
when those segments do not form a `/tree/<branch>` tail (wrong keyword
like `blob`, or a bare `tree` with nothing after it) they are ignored
with a `none` branch rather than making the parse fail. -/
theorem parse_github_ignores_extra_segments (p o r : List Char)
    (rest : List (List Char))
    (hsplit : splitSlash (stripSlashes p) = o :: r :: rest) :
    (∃ info, githubFromPath p = some info) ∧
    (rest.head? ≠ some "tree".data ∨ rest.length ≤ 1 →
      githubFromPath p = some ⟨o, removesuffixGit r, none⟩) := by
  unfold githubFromPath
  match rest, hsplit with
  | [], hsplit =>
    rw [parseGithub_two _ o r hsplit]
    exact ⟨⟨_, rfl⟩, fun _ => rfl⟩
  | [t], hsplit =>
    rw [parseGithub_three _ o r t hsplit]
    exact ⟨⟨_, rfl⟩, fun _ => rfl⟩
  | t :: b0 :: bs, hsplit =>
    rw [parseGithub_many _ o r t b0 bs hsplit]
    constructor
    · by_cases htree : t = "tree".data
      · rw [if_pos htree]; exact ⟨_, rfl⟩
      · rw [if_neg htree]; exact ⟨_, rfl⟩
    · intro h
      have htree : ¬ t = "tree".data := by
        rcases h with h | h
        · intro hh; exact h (by simp [hh])
        · simp at h
      rw [if_neg htree]

/-- Witness for C9 at concrete URLs: `owner/repo/blob/main/file.py`
(a non-`tree` tail) and `owner/repo/tree` (a bare `tree`) both parse
with branch `none`. -/
theorem parse_github_ignores_extra_segments_witness :
    githubFromPath "owner/repo/blob/main/file.py".data
      = some ⟨"owner".data, "repo".data, none⟩ ∧
    githubFromPath "owner/repo/tree".data
      = some ⟨"owner".data, "repo".data, none⟩ := by
  constructor
  · have h := (parse_github_ignores_extra_segments
      "owner/repo/blob/main/file.py".data "owner".data "repo".data
      ["blob".data, "main".data, "file.py".data] (by decide)).2 (by decide)
    rw [h]
    decide
  · have h := (parse_github_ignores_extra_segments
      "owner/repo/tree".data "owner".data "repo".data ["tree".data]
      (by decide)).2 (by decide)
    rw [h]
    decide

/-! ## Helper lemmas for the fetch loops -/

/-- A list whose length is a nonzero number is not empty. -/
lemma list_ne_nil_of_length {α : Type} {l : List α} {n : Nat}
    (h : l.length = n) (hn : n ≠ 0) : l ≠ [] := by
  intro hh
  subst hh
  exact hn h.symm

/-- The last element of a cons is the last element of a nonempty
tail. -/
lemma getLast?_cons_of_ne_nil {α : Type} (a : α) (l : List α) (h : l ≠ []) :
    (a :: l).getLast? = l.getLast? := by
  cases l with
  | nil => exact absurd rfl h
  | cons b bs => exact List.getLast?_cons_cons

/-- Invariants of the GitHub fetch loop on a run that is not aborted
by a rate limit, for entries that start with no content: one snapshot
per file carrying its path, `fetched_files` grows by the number of
files, and skips, stored contents and recorded errors partition the
files. -/
lemma githubLoop_counts (fetch : FileEntry → Nat → FetchOutcome) (maxSize : Nat)
    (files : List FileEntry) : ∀ (p : FetchProgress),
    (∀ e ∈ files, e.content = none) →
    (githubFetchLoop fetch maxSize p files).abort = none →
    (githubFetchLoop fetch maxSize p files).snaps.length = files.length ∧
    (githubFetchLoop fetch maxSize p files).snaps.map (fun s => s.current_file)
      = files.map (fun e => e.path) ∧
    (githubFetchLoop fetch maxSize p files).pfin.fetched_files
      = p.fetched_files + files.length ∧
    (githubFetchLoop fetch maxSize p files).pfin.skipped_binary
      + ((githubFetchLoop fetch maxSize p files).ents.filter
          (fun e => e.content.isSome)).length
      + (githubFetchLoop fetch maxSize p files).pfin.errors.length
      = p.skipped_binary + p.errors.length + files.length ∧
    (files ≠ [] → (githubFetchLoop fetch maxSize p files).snaps.getLast?
      = some (githubFetchLoop fetch maxSize p files).pfin) := by
  induction files with
  | nil =>
    intro p hc ha
    simp [githubFetchLoop]
  | cons e rest ih =>
    intro p hc ha
    have hce : e.content = none := hc e (List.mem_cons_self e rest)
    have hcr : ∀ x ∈ rest, x.content = none :=
      fun x hx => hc x (List.mem_cons_of_mem e hx)
    by_cases hb : e.is_binary
    · simp only [githubFetchLoop, hb, if_true] at ha ⊢
      obtain ⟨ih1, ih2, ih3, ih4, ih5⟩ := ih _ hcr ha
      dsimp only at ih3 ih4
      refine ⟨by simp [ih1], by simp [ih2], ?_, ?_, ?_⟩
      · rw [ih3]; simp only [List.length_cons]; omega
      · simp only [List.filter_cons, hce, Option.isSome_none,
          Bool.false_eq_true, if_false, List.length_cons]
        omega
      · intro _
        by_cases hrest : rest = []
        · subst hrest
          simp [githubFetchLoop]
        · have hsn := list_ne_nil_of_length ih1
            (fun hh => hrest (List.length_eq_zero.mp hh))
          rw [getLast?_cons_of_ne_nil _ _ hsn]
          exact ih5 hrest
    · simp only [githubFetchLoop, hb, Bool.false_eq_true, if_false] at ha ⊢
      by_cases hsz : maxSize > 0 ∧ e.size > maxSize
      · simp only [if_pos hsz] at ha ⊢
        obtain ⟨ih1, ih2, ih3, ih4, ih5⟩ := ih _ hcr ha
        dsimp only at ih3 ih4
        refine ⟨by simp [ih1], by simp [ih2], ?_, ?_, ?_⟩
        · rw [ih3]; simp only [List.length_cons]; omega
        · simp only [List.filter_cons, hce, Option.isSome_none,
            Bool.false_eq_true, if_false, List.length_cons]
          omega
        · intro _
          by_cases hrest : rest = []
          · subst hrest
            simp [githubFetchLoop]
          · have hsn := list_ne_nil_of_length ih1
              (fun hh => hrest (List.length_eq_zero.mp hh))
            rw [getLast?_cons_of_ne_nil _ _ hsn]
            exact ih5 hrest
      · simp only [if_neg hsz] at ha ⊢
        cases hf0 : fetch e 0 with
        | ok c =>
          simp only [hf0] at ha ⊢
          obtain ⟨ih1, ih2, ih3, ih4, ih5⟩ := ih _ hcr ha
          dsimp only at ih3 ih4
          refine ⟨by simp [ih1], by simp [ih2], ?_, ?_, ?_⟩
          · rw [ih3]; simp only [List.length_cons]; omega
          · simp only [List.filter_cons, Option.isSome_some, if_true,
              List.length_cons]
            omega
          · intro _
            by_cases hrest : rest = []
            · subst hrest
              simp [githubFetchLoop]
            · have hsn := list_ne_nil_of_length ih1
                (fun hh => hrest (List.length_eq_zero.mp hh))
              rw [getLast?_cons_of_ne_nil _ _ hsn]
              exact ih5 hrest
        | exn ex =>
          cases ex with
          | rateLimit r0 m0 =>
            rw [hf0] at ha
            exact absurd ha (by simp)
          | other m1 =>
            simp only [hf0] at ha ⊢
            cases hf1 : fetch e 1 with
            | ok c =>
              simp only [hf1] at ha ⊢
              obtain ⟨ih1, ih2, ih3, ih4, ih5⟩ := ih _ hcr ha
              dsimp only at ih3 ih4
              refine ⟨by simp [ih1], by simp [ih2], ?_, ?_, ?_⟩
              · rw [ih3]; simp only [List.length_cons]; omega
              · simp only [List.filter_cons, Option.isSome_some, if_true,
                  List.length_cons]
                omega
              · intro _
                by_cases hrest : rest = []
                · subst hrest
                  simp [githubFetchLoop]
                · have hsn := list_ne_nil_of_length ih1
                    (fun hh => hrest (List.length_eq_zero.mp hh))
                  rw [getLast?_cons_of_ne_nil _ _ hsn]
                  exact ih5 hrest
            | exn ex2 =>
              simp only [hf1] at ha ⊢
              obtain ⟨ih1, ih2, ih3, ih4, ih5⟩ := ih _ hcr ha
              dsimp only at ih3 ih4
              simp only [List.length_append, List.length_cons,
                List.length_nil] at ih4
              refine ⟨by simp [ih1], by simp [ih2], ?_, ?_, ?_⟩
              · rw [ih3]; simp only [List.length_cons]; omega
              · simp only [List.filter_cons, hce, Option.isSome_none,
                  Bool.false_eq_true, if_false, List.length_cons]
                omega
              · intro _
                by_cases hrest : rest = []
                · subst hrest
                  simp [githubFetchLoop]
                · have hsn := list_ne_nil_of_length ih1
                    (fun hh => hrest (List.length_eq_zero.mp hh))
                  rw [getLast?_cons_of_ne_nil _ _ hsn]
                  exact ih5 hrest

/-- Invariants of the base-class fetch loop, for entries that start
with no content: one snapshot per file carrying its path,
`fetched_files` grows by the number of files, and skips, stored
contents and recorded errors partition the files. -/
lemma baseLoop_counts (fetch : FileEntry → Nat → FetchOutcome) (maxSize : Nat)
    (files : List FileEntry) : ∀ (p : FetchProgress),
    (∀ e ∈ files, e.content = none) →
    (baseFetchLoop fetch maxSize p files).snaps.length = files.length ∧
    (baseFetchLoop fetch maxSize p files).snaps.map (fun s => s.current_file)
      = files.map (fun e => e.path) ∧
    (baseFetchLoop fetch maxSize p files).pfin.fetched_files
      = p.fetched_files + files.length ∧
    (baseFetchLoop fetch maxSize p files).pfin.skipped_binary
      + ((baseFetchLoop fetch maxSize p files).ents.filter
          (fun e => e.content.isSome)).length
      + (baseFetchLoop fetch maxSize p files).pfin.errors.length
      = p.skipped_binary + p.errors.length + files.length ∧
    (files ≠ [] → (baseFetchLoop fetch maxSize p files).snaps.getLast?
      = some (baseFetchLoop fetch maxSize p files).pfin) := by
  induction files with
  | nil =>
    intro p hc
    simp [baseFetchLoop]
  | cons e rest ih =>
    intro p hc
    have hce : e.content = none := hc e (List.mem_cons_self e rest)
    have hcr : ∀ x ∈ rest, x.content = none :=
      fun x hx => hc x (List.mem_cons_of_mem e hx)
    by_cases hb : e.is_binary
    · simp only [baseFetchLoop, hb, if_true]
      obtain ⟨ih1, ih2, ih3, ih4, ih5⟩ := ih { p with
          current_file := e.path
          skipped_binary := p.skipped_binary + 1
          fetched_files := p.fetched_files + 1 } hcr
      try dsimp only at ih3 ih4
      refine ⟨by simp [ih1], by simp [ih2], ?_, ?_, ?_⟩
      · rw [ih3]; simp only [List.length_cons]; omega
      · simp only [List.filter_cons, hce, Option.isSome_none,
          Bool.false_eq_true, if_false, List.length_cons]
        omega
      · intro _
        by_cases hrest : rest = []
        · subst hrest
          simp [baseFetchLoop]
        · have hsn := list_ne_nil_of_length ih1
            (fun hh => hrest (List.length_eq_zero.mp hh))
          rw [getLast?_cons_of_ne_nil _ _ hsn]
          exact ih5 hrest
    · simp only [baseFetchLoop, hb, Bool.false_eq_true, if_false]
      by_cases hsz : e.size > maxSize ∧ maxSize > 0
      · simp only [if_pos hsz]
        obtain ⟨ih1, ih2, ih3, ih4, ih5⟩ := ih { p with
          current_file := e.path
          skipped_binary := p.skipped_binary + 1
          fetched_files := p.fetched_files + 1 } hcr
        try dsimp only at ih3 ih4
        refine ⟨by simp [ih1], by simp [ih2], ?_, ?_, ?_⟩
        · rw [ih3]; simp only [List.length_cons]; omega
        · simp only [List.filter_cons, hce, Option.isSome_none,
            Bool.false_eq_true, if_false, List.length_cons]
          omega
        · intro _
          by_cases hrest : rest = []
          · subst hrest
            simp [baseFetchLoop]
          · have hsn := list_ne_nil_of_length ih1
              (fun hh => hrest (List.length_eq_zero.mp hh))
            rw [getLast?_cons_of_ne_nil _ _ hsn]
            exact ih5 hrest
      · simp only [if_neg hsz]
        cases hf0 : fetch e 0 with
        | ok c =>
          simp only [hf0]
          obtain ⟨ih1, ih2, ih3, ih4, ih5⟩ := ih { p with
          current_file := e.path
          fetched_files := p.fetched_files + 1 } hcr
          try dsimp only at ih3 ih4
          refine ⟨by simp [ih1], by simp [ih2], ?_, ?_, ?_⟩
          · rw [ih3]; simp only [List.length_cons]; omega
          · simp only [List.filter_cons, Option.isSome_some, if_true,
              List.length_cons]
            omega
          · intro _
            by_cases hrest : rest = []
            · subst hrest
              simp [baseFetchLoop]
            · have hsn := list_ne_nil_of_length ih1
                (fun hh => hrest (List.length_eq_zero.mp hh))
              rw [getLast?_cons_of_ne_nil _ _ hsn]
              exact ih5 hrest
        | exn ex =>
          simp only [hf0]
          obtain ⟨ih1, ih2, ih3, ih4, ih5⟩ := ih { p with
          current_file := e.path
          errors := p.errors ++ [e.path ++ ": " ++ ex.msg]
          fetched_files := p.fetched_files + 1 } hcr
          try dsimp only at ih3 ih4
          simp only [List.length_append, List.length_cons,
            List.length_nil] at ih4
          refine ⟨by simp [ih1], by simp [ih2], ?_, ?_, ?_⟩
          · rw [ih3]; simp only [List.length_cons]; omega
          · simp only [List.filter_cons, hce, Option.isSome_none,
              Bool.false_eq_true, if_false, List.length_cons]
            omega
          · intro _
            by_cases hrest : rest = []
            · subst hrest
              simp [baseFetchLoop]
            · have hsn := list_ne_nil_of_length ih1
                (fun hh => hrest (List.length_eq_zero.mp hh))
              rw [getLast?_cons_of_ne_nil _ _ hsn]
              exact ih5 hrest

/-- A file entry used as concrete probe input for the fetch-loop
claims. -/
def probeEntry : FileEntry := ⟨"a.py", 10, false, none, ""⟩

/-- An oracle that fails the first attempt with an ordinary error and
raises `RateLimitError` on the retry. -/
def fetchRLOnRetry : FileEntry → Nat → FetchOutcome := fun _ n =>
  if n = 0 then .exn (.other "boom") else .exn (.rateLimit 5 "rate limited")

/-- An oracle that raises `RateLimitError` on the first attempt. -/
def fetchRLFirst : FileEntry → Nat → FetchOutcome := fun _ _ =>
  .exn (.rateLimit 7 "rl")

/-- An oracle that fails the first attempt and succeeds on the
retry. -/
def fetchFailThenOk : FileEntry → Nat → FetchOutcome := fun _ n =>
  if n = 0 then .exn (.other "boom") else .ok "data"

/-- An oracle that fails every attempt with an ordinary error. -/
def fetchAlwaysFail : FileEntry → Nat → FetchOutcome := fun _ _ =>
  .exn (.other "boom")

/-- C1 counterexample: with a first attempt failing on an ordinary
error and the retry raising `RateLimitError`, the rate-limit error
does not escape `GitHubProvider.fetch_all_files` — the run completes
with no abort and the rate-limit message is appended to `errors`,
contradicting the claim that a rate-limit signal always propagates and
is never recorded, whichever attempt raises it. -/
theorem github_retry_rate_limit_recorded_not_raised :
    (github_fetch_all_files fetchRLOnRetry 1000000 [probeEntry]).abort
      = none ∧
    (github_fetch_all_files fetchRLOnRetry 1000000 [probeEntry]).pfin.errors
      = ["a.py: rate limited"] ∧
    fetchRLOnRetry probeEntry 1 = .exn (.rateLimit 5 "rate limited") := by
  exact ⟨by decide, by decide, by decide⟩

/-- C1 amended: in `GitHubProvider.fetch_all_files`, a
`RateLimitError` raised on the **first** fetch attempt for a file
propagates immediately out of the generator — no snapshot is yielded
for that file, nothing is recorded in `errors`, and the remaining
entries are untouched; but a `RateLimitError` raised on the **retry**
attempt is caught like any other retry failure: the run is not
aborted and `"<path>: <message>"` is appended to `errors`. -/
theorem github_rate_limit_first_attempt_only (e : FileEntry)
    (rest : List FileEntry) (fetch : FileEntry → Nat → FetchOutcome)
    (maxSize r : Nat) (m m1 m2 : String)
    (hb : e.is_binary = false) (hs : ¬ (maxSize > 0 ∧ e.size > maxSize)) :
    (fetch e 0 = .exn (.rateLimit r m) →
      (github_fetch_all_files fetch maxSize (e :: rest)).snaps = [] ∧
      (github_fetch_all_files fetch maxSize (e :: rest)).abort = some (r, m) ∧
      (github_fetch_all_files fetch maxSize (e :: rest)).ents = e :: rest ∧
      (github_fetch_all_files fetch maxSize (e :: rest)).pfin.errors = []) ∧
    (fetch e 0 = .exn (.other m1) → fetch e 1 = .exn (.rateLimit r m2) →
      (github_fetch_all_files fetch maxSize [e]).abort = none ∧
      (github_fetch_all_files fetch maxSize [e]).pfin.errors
        = [e.path ++ ": " ++ m2] ∧
      (github_fetch_all_files fetch maxSize [e]).snaps.length = 1) := by
  constructor
  · intro h0
    unfold github_fetch_all_files
    simp only [githubFetchLoop, hb, Bool.false_eq_true, if_false, if_neg hs, h0]
    exact ⟨trivial, trivial, trivial, trivial⟩
  · intro h0 h1
    unfold github_fetch_all_files
    simp only [githubFetchLoop, hb, Bool.false_eq_true, if_false, if_neg hs,
      h0, h1]
    refine ⟨trivial, ?_, by simp⟩
    simp [PyExn.msg]

/-- Witness for the amended C1: a first-attempt rate limit aborts the
run with no snapshot and no recorded error, while a retry-attempt rate
limit ends the run normally with the message recorded. -/
theorem github_rate_limit_first_attempt_only_witness :
    (github_fetch_all_files fetchRLFirst 1000000 [probeEntry]).snaps = [] ∧
    (github_fetch_all_files fetchRLFirst 1000000 [probeEntry]).abort
      = some (7, "rl") ∧
    (github_fetch_all_files fetchRLFirst 1000000 [probeEntry]).pfin.errors
      = [] ∧
    (github_fetch_all_files fetchRLOnRetry 1000000 [probeEntry]).abort
      = none ∧
    (github_fetch_all_files fetchRLOnRetry 1000000 [probeEntry]).pfin.errors
      = ["a.py: rate limited"] := by
  have h1 := (github_rate_limit_first_attempt_only probeEntry [] fetchRLFirst
    1000000 7 "rl" "" "" (by decide) (by decide)).1 (by decide)
  have h2 := (github_rate_limit_first_attempt_only probeEntry [] fetchRLOnRetry
    1000000 5 "" "boom" "rate limited" (by decide) (by decide)).2
    (by decide) (by decide)
  refine ⟨h1.1, h1.2.1, h1.2.2.2, h2.1, ?_⟩
  rw [h2.2.1]
  rfl

/-- C2 counterexample: with an oracle whose retry attempt would
succeed, the base-class default `fetch_all_files` still records the
first-attempt error and stores no content — it never consults the
retry, contradicting the claim that the shared default retries exactly
once. -/
theorem base_fetch_does_not_retry :
    fetchFailThenOk probeEntry 1 = .ok "data" ∧
    (base_fetch_all_files fetchFailThenOk 1000000 [probeEntry]).pfin.errors
      = ["a.py: boom"] ∧
    (base_fetch_all_files fetchFailThenOk 1000000 [probeEntry]).ents
      = [probeEntry] := by
  exact ⟨by decide, by decide, by decide⟩

/-- C2 amended: for a file whose first fetch attempt fails, the
GitHub override (when the first failure is not a rate limit) and the
Azure DevOps override of `fetch_all_files` retry exactly once — a
successful retry stores the content with no error and no abort, a
failed retry appends `"<path>: <retry error message>"` and stores
nothing — while the shared base-class default performs no retry at all
and appends the first attempt's error immediately. -/
theorem fetch_retry_once_in_overrides_not_base (e : FileEntry)
    (fetch : FileEntry → Nat → FetchOutcome) (maxSize : Nat) (c : String)
    (ex ex2 : PyExn) (m1 : String)
    (hb : e.is_binary = false) (hs : ¬ (maxSize > 0 ∧ e.size > maxSize))
    (h0 : fetch e 0 = .exn ex) :
    (fetch e 1 = .ok c →
      (azure_fetch_all_files fetch maxSize [e]).ents
        = [{ e with content := some c }] ∧
      (azure_fetch_all_files fetch maxSize [e]).pfin.errors = []) ∧
    (fetch e 1 = .exn ex2 →
      (azure_fetch_all_files fetch maxSize [e]).ents = [e] ∧
      (azure_fetch_all_files fetch maxSize [e]).pfin.errors
        = [e.path ++ ": " ++ ex2.msg]) ∧
    (fetch e 0 = .exn (.other m1) → fetch e 1 = .ok c →
      (github_fetch_all_files fetch maxSize [e]).ents
        = [{ e with content := some c }] ∧
      (github_fetch_all_files fetch maxSize [e]).pfin.errors = [] ∧
      (github_fetch_all_files fetch maxSize [e]).abort = none) ∧
    (fetch e 0 = .exn (.other m1) → fetch e 1 = .exn ex2 →
      (github_fetch_all_files fetch maxSize [e]).ents = [e] ∧
      (github_fetch_all_files fetch maxSize [e]).pfin.errors
        = [e.path ++ ": " ++ ex2.msg] ∧
      (github_fetch_all_files fetch maxSize [e]).abort = none) ∧
    ((base_fetch_all_files fetch maxSize [e]).pfin.errors
        = [e.path ++ ": " ++ ex.msg] ∧
     (base_fetch_all_files fetch maxSize [e]).ents = [e]) := by
  have hs2 : ¬ (e.size > maxSize ∧ maxSize > 0) := fun hh => hs ⟨hh.2, hh.1⟩
  refine ⟨fun h1 => ?_, fun h1 => ?_, fun h0g h1 => ?_, fun h0g h1 => ?_, ?_⟩
  · unfold azure_fetch_all_files
    simp only [azureFetchLoop, hb, Bool.false_eq_true, if_false, if_neg hs,
      h0, h1]
    exact ⟨trivial, trivial⟩
  · unfold azure_fetch_all_files
    simp only [azureFetchLoop, hb, Bool.false_eq_true, if_false, if_neg hs,
      h0, h1]
    exact ⟨trivial, by simp⟩
  · unfold github_fetch_all_files
    simp only [githubFetchLoop, hb, Bool.false_eq_true, if_false, if_neg hs,
      h0g, h1]
    exact ⟨trivial, trivial, trivial⟩
  · unfold github_fetch_all_files
    simp only [githubFetchLoop, hb, Bool.false_eq_true, if_false, if_neg hs,
      h0g, h1]
    exact ⟨trivial, by simp, trivial⟩
  · unfold base_fetch_all_files
    simp only [baseFetchLoop, hb, Bool.false_eq_true, if_false, if_neg hs2, h0]
    exact ⟨by simp, trivial⟩

/-- Witness for the amended C2: the Azure and GitHub overrides turn a
fail-then-succeed oracle into stored content with no error, both
record the retry message when both attempts fail, and the base default
records the first failure even though the retry would have
succeeded. -/
theorem fetch_retry_once_in_overrides_not_base_witness :
    (azure_fetch_all_files fetchFailThenOk 1000000 [probeEntry]).ents
      = [{ probeEntry with content := some "data" }] ∧
    (azure_fetch_all_files fetchFailThenOk 1000000 [probeEntry]).pfin.errors
      = [] ∧
    (azure_fetch_all_files fetchAlwaysFail 1000000 [probeEntry]).pfin.errors
      = ["a.py: boom"] ∧
    (github_fetch_all_files fetchFailThenOk 1000000 [probeEntry]).ents
      = [{ probeEntry with content := some "data" }] ∧
    (github_fetch_all_files fetchFailThenOk 1000000 [probeEntry]).pfin.errors
      = [] ∧
    (github_fetch_all_files fetchAlwaysFail 1000000 [probeEntry]).pfin.errors
      = ["a.py: boom"] ∧
    (base_fetch_all_files fetchFailThenOk 1000000 [probeEntry]).pfin.errors
      = ["a.py: boom"] := by
  have h1 := (fetch_retry_once_in_overrides_not_base probeEntry fetchFailThenOk
    1000000 "data" (.other "boom") (.other "x") "boom"
    (by decide) (by decide) (by decide)).1 (by decide)
  have h2 := (fetch_retry_once_in_overrides_not_base probeEntry fetchAlwaysFail
    1000000 "" (.other "boom") (.other "boom") "boom"
    (by decide) (by decide) (by decide)).2.1 (by decide)
  have h4 := (fetch_retry_once_in_overrides_not_base probeEntry fetchFailThenOk
    1000000 "data" (.other "boom") (.other "x") "boom"
    (by decide) (by decide) (by decide)).2.2.1 (by decide) (by decide)
  have h5 := (fetch_retry_once_in_overrides_not_base probeEntry fetchAlwaysFail
    1000000 "" (.other "boom") (.other "boom") "boom"
    (by decide) (by decide) (by decide)).2.2.2.1 (by decide) (by decide)
  have h3 := (fetch_retry_once_in_overrides_not_base probeEntry fetchFailThenOk
    1000000 "" (.other "boom") (.other "x") "boom"
    (by decide) (by decide) (by decide)).2.2.2.2
  refine ⟨h1.1, h1.2, ?_, h4.1, h4.2.1, ?_, ?_⟩
  · rw [h2.2]
    rfl
  · rw [h5.2.1]
    rfl
  · rw [h3.1]
    rfl

/-- C3: for any list of N input files all starting with no content,
when the GitHub run is not aborted by a rate limit, both the GitHub
override and the shared base default of `fetch_all_files` yield
exactly N progress snapshots, one per file in input order (each
snapshot's `current_file` is that file's path, and the last snapshot
is the final progress state); `fetched_files` in the final state is N;
and the files partition into skips, successes and errors:
`skipped_binary` plus entries with stored content plus recorded errors
equals N. -/
theorem fetch_all_files_one_snapshot_per_file
    (fetch : FileEntry → Nat → FetchOutcome) (maxSize : Nat)
    (files : List FileEntry)
    (hc : ∀ e ∈ files, e.content = none)
    (hna : (github_fetch_all_files fetch maxSize files).abort = none) :
    ((github_fetch_all_files fetch maxSize files).snaps.length = files.length ∧
     (github_fetch_all_files fetch maxSize files).snaps.map
        (fun s => s.current_file) = files.map (fun e => e.path) ∧
     (files ≠ [] → (github_fetch_all_files fetch maxSize files).snaps.getLast?
        = some (github_fetch_all_files fetch maxSize files).pfin) ∧
     (github_fetch_all_files fetch maxSize files).pfin.fetched_files
        = files.length ∧
     (github_fetch_all_files fetch maxSize files).pfin.skipped_binary
        + ((github_fetch_all_files fetch maxSize files).ents.filter
            (fun e => e.content.isSome)).length
        + (github_fetch_all_files fetch maxSize files).pfin.errors.length
        = files.length) ∧
    ((base_fetch_all_files fetch maxSize files).snaps.length = files.length ∧
     (base_fetch_all_files fetch maxSize files).snaps.map
        (fun s => s.current_file) = files.map (fun e => e.path) ∧
     (files ≠ [] → (base_fetch_all_files fetch maxSize files).snaps.getLast?
        = some (base_fetch_all_files fetch maxSize files).pfin) ∧
     (base_fetch_all_files fetch maxSize files).pfin.fetched_files
        = files.length ∧
     (base_fetch_all_files fetch maxSize files).pfin.skipped_binary
        + ((base_fetch_all_files fetch maxSize files).ents.filter
            (fun e => e.content.isSome)).length
        + (base_fetch_all_files fetch maxSize files).pfin.errors.length
        = files.length) := by
  constructor
  · obtain ⟨h1, h2, h3, h4, h5⟩ :=
      githubLoop_counts fetch maxSize files ⟨files.length, 0, 0, "", []⟩ hc hna
    exact ⟨h1, h2, h5, by simpa using h3, by simpa using h4⟩
  · obtain ⟨h1, h2, h3, h4, h5⟩ :=
      baseLoop_counts fetch maxSize files ⟨files.length, 0, 0, "", []⟩ hc
    exact ⟨h1, h2, h5, by simpa using h3, by simpa using h4⟩

/-- A three-file probe list covering all outcomes: a binary skip, a
success, and a file that fails both attempts. -/
def progressProbeFiles : List FileEntry :=
  [⟨"img.png", 10, true, none, ""⟩, ⟨"ok.py", 5, false, none, ""⟩,
   ⟨"bad.py", 5, false, none, ""⟩]

/-- An oracle that succeeds only on `ok.py`. -/
def progressProbeFetch : FileEntry → Nat → FetchOutcome := fun e _ =>
  if e.path = "ok.py" then .ok "x" else .exn (.other "down")

/-- Witness for C3 on the three-file probe: three snapshots, final
`fetched_files` of 3, and skip + success + error counts summing to
3, for both the GitHub and the base variants. -/
theorem fetch_all_files_one_snapshot_per_file_witness :
    (github_fetch_all_files progressProbeFetch 1000000
        progressProbeFiles).snaps.length = 3 ∧
    (github_fetch_all_files progressProbeFetch 1000000
        progressProbeFiles).pfin.fetched_files = 3 ∧
    (github_fetch_all_files progressProbeFetch 1000000
        progressProbeFiles).pfin.skipped_binary
      + ((github_fetch_all_files progressProbeFetch 1000000
          progressProbeFiles).ents.filter (fun e => e.content.isSome)).length
      + (github_fetch_all_files progressProbeFetch 1000000
          progressProbeFiles).pfin.errors.length = 3 ∧
    (base_fetch_all_files progressProbeFetch 1000000
        progressProbeFiles).pfin.fetched_files = 3 := by
  have h := fetch_all_files_one_snapshot_per_file progressProbeFetch 1000000
    progressProbeFiles (by decide) (by decide)
  refine ⟨?_, ?_, ?_, ?_⟩
  · rw [h.1.1]; rfl
  · rw [h.1.2.2.2.1]; rfl
  · rw [h.1.2.2.2.2]; rfl
  · rw [h.2.2.2.2.1]; rfl
